import Mathlib

/-
  Verification of the myPinyinExt longest-match dictionary lookup and
  text-span resolution engine, shallowly embedded from src/background.js
  and src/mypy.js (the MyPy class plus the content script).  Strings are
  modelled as lists of characters, DOM text nodes as records carrying an
  identifier and their character data.
-/

/-- A dictionary entry: simplified form, traditional form, pinyin and the
list of definitions filed under a headword. -/
structure DictEntry where
  simplified : List Char
  traditional : List Char
  pinyin : List Char
  definition : List (List Char)
deriving DecidableEq

/-- Modelled from the spec: the file dictionary.js (class Dictionary) is not
among the sources; per the spec the DictionaryIndex is a mapping from
headword to the ordered group of entries filed under it.  We model it as an
association list from headword to entry group. -/
abbrev Dict := List (List Char × List DictEntry)

/-- Modelled from the spec: exact-string lookup of a headword, returning the
entry group stored under it, or the empty sequence when the headword is not
a key. -/
def lookup (D : Dict) (k : List Char) : List DictEntry :=
  match D.find? (fun p => p.1 == k) with
  | some p => p.2
  | none => []

/-- Modelled from the spec: maxHeadwordLength is the maximum key length of
the index, derived at load time. -/
def maxHeadwordLength (D : Dict) : Nat :=
  D.foldr (fun p m => max p.1.length m) 0

/-- Modelled from the spec: the longest-match resolver (Dictionary.lookUpWord,
called from background.js line 30) tries candidate lengths L from
min(len(buffer), maxHeadwordLength) down to 1 and returns the first
non-empty lookup together with its match length, or noMatch (none). -/
def lookUpWordFrom (D : Dict) (B : List Char) : Nat → Option (List DictEntry × Nat)
  | 0 => none
  | L + 1 =>
    let es := lookup D (B.take (L + 1))
    if es.isEmpty then lookUpWordFrom D B L else some (es, L + 1)

/-- Modelled from the spec: the resolver entry point. -/
def lookUpWord (D : Dict) (B : List Char) : Option (List DictEntry × Nat) :=
  lookUpWordFrom D B (min B.length (maxHeadwordLength D))

theorem lookUpWordFrom_none (D : Dict) (B : List Char) :
    ∀ N, lookUpWordFrom D B N = none →
      ∀ L, 1 ≤ L → L ≤ N → lookup D (B.take L) = [] := by
  intro N
  induction N with
  | zero => intro _ L h1 h2; omega
  | succ n ih =>
    intro hnone L h1 h2
    unfold lookUpWordFrom at hnone
    by_cases hemp : (lookup D (B.take (n + 1))).isEmpty
    · rcases Nat.lt_or_ge L (n + 1) with hL | hL
      · exact ih (by simpa [hemp] using hnone) L h1 (by omega)
      · have : L = n + 1 := by omega
        subst this
        exact List.isEmpty_iff.mp hemp
    · simp [hemp] at hnone

theorem lookUpWordFrom_some (D : Dict) (B : List Char) :
    ∀ N es L, lookUpWordFrom D B N = some (es, L) →
      1 ≤ L ∧ L ≤ N ∧ es = lookup D (B.take L) ∧ es ≠ [] ∧
      ∀ L', L < L' → L' ≤ N → lookup D (B.take L') = [] := by
  intro N
  induction N with
  | zero => intro es L h; simp [lookUpWordFrom] at h
  | succ n ih =>
    intro es L h
    unfold lookUpWordFrom at h
    by_cases hemp : (lookup D (B.take (n + 1))).isEmpty
    · have h' := ih es L (by simpa [hemp] using h)
      refine ⟨h'.1, by omega, h'.2.2.1, h'.2.2.2.1, ?_⟩
      intro L' hL1 hL2
      rcases Nat.lt_or_ge L' (n + 1) with hc | hc
      · exact h'.2.2.2.2 L' hL1 (by omega)
      · have : L' = n + 1 := by omega
        subst this
        exact List.isEmpty_iff.mp hemp
    · simp only [hemp, if_neg, Bool.false_eq_true, not_false_iff, ite_false,
        Option.some.injEq, Prod.mk.injEq] at h
      obtain ⟨h1, h2⟩ := h
      subst h2
      refine ⟨by omega, le_refl _, h1.symm, ?_, ?_⟩
      · subst h1; exact fun hc => hemp (by simp [hc])
      · intro L' hL1 hL2; omega

/-- C1: Longest-match resolution.  For every dictionary D and buffer B,
lookUpWord returns the unique maximal length L with 1 ≤ L ≤
min(len(B), maxHeadwordLength(D)) such that the prefix B[0:L] is a key of D
(has a non-empty entry group), together with all entries stored under that
key, and returns none (noMatch) when no such L exists. -/
theorem resolve_longest_match (D : Dict) (B : List Char) :
    (∀ es L, lookUpWord D B = some (es, L) →
      1 ≤ L ∧ L ≤ min B.length (maxHeadwordLength D) ∧
      es = lookup D (B.take L) ∧ es ≠ [] ∧
      ∀ L', L < L' → L' ≤ min B.length (maxHeadwordLength D) →
        lookup D (B.take L') = []) ∧
    (lookUpWord D B = none →
      ∀ L, 1 ≤ L → L ≤ min B.length (maxHeadwordLength D) →
        lookup D (B.take L) = []) :=
  ⟨fun es L h => lookUpWordFrom_some D B (min B.length (maxHeadwordLength D)) es L h,
   fun h => lookUpWordFrom_none D B (min B.length (maxHeadwordLength D)) h⟩

def entryZhong : DictEntry := ⟨['中'], ['中'], ['z'], [['m']]⟩

def entryZhongguo : DictEntry := ⟨['中', '国'], ['中', '國'], ['Z'], [['C']]⟩

def demoDict : Dict := [(['中'], [entryZhong]), (['中', '国'], [entryZhongguo])]

def demoBuffer : List Char := ['中', '国', '人']

theorem resolve_longest_match_witness :
    1 ≤ 2 ∧ 2 ≤ min demoBuffer.length (maxHeadwordLength demoDict) ∧
    ([entryZhongguo] : List DictEntry) ≠ [] := by
  have h := (resolve_longest_match demoDict demoBuffer).1 [entryZhongguo] 2 (by decide)
  exact ⟨h.1, h.2.1, h.2.2.2.1⟩

/-- The zero-width non-joiner character U+200C. -/
def zwnjChar : Char := Char.ofNat 0x200C

/-- Inner while loop of processSearchResult (mypy.js lines 245-247): the
number of consecutive U+200C characters of T starting at index hl, i.e. how
far the cursor is advanced before the next visible character is counted. -/
def skipJoinersLen (T : List Char) (hl : Nat) : Nat :=
  ((T.drop hl).takeWhile (fun c => c == zwnjChar)).length

/-- The for loop of processSearchResult (mypy.js lines 243-249): iterate
matchLen times; each iteration first advances the cursor past consecutive
U+200C characters, then advances it by one. -/
def hlLoop (T : List Char) : Nat → Nat → Nat
  | 0, hl => hl
  | m + 1, hl => hlLoop T m (hl + skipJoinersLen T hl + 1)

/-- The highlight length computed by processSearchResult before projecting
onto the DOM: the cursor starts at 0. -/
def highlightLength (T : List Char) (m : Nat) : Nat := hlLoop T m 0

/-- Character-by-character restatement of the same loop: every iteration
consumes the joiners in front of the cursor and one further character; an
exhausted text contributes one slot per remaining iteration. -/
def hlChars : List Char → Nat → Nat
  | _, 0 => 0
  | [], m + 1 => m + 1
  | c :: t, m + 1 => if c = zwnjChar then hlChars t (m + 1) + 1 else hlChars t m + 1

/-- Spec-side count: the number of U+200C characters of T occurring before
the m-th visible (non-joiner) character. -/
def joinersBeforeVisible : List Char → Nat → Nat
  | _, 0 => 0
  | [], _ + 1 => 0
  | c :: t, m + 1 =>
    if c = zwnjChar then joinersBeforeVisible t (m + 1) + 1
    else joinersBeforeVisible t m

/-- Spec-side count: the number of visible (non U+200C) characters of T. -/
def countVisible (T : List Char) : Nat :=
  (T.filter (fun c => c != zwnjChar)).length

theorem hlChars_nil (m : Nat) : hlChars [] m = m := by
  cases m <;> rfl

theorem hlChars_joiner_block (t : List Char) (m : Nat) :
    ∀ j : List Char, (∀ c ∈ j, c = zwnjChar) →
      hlChars (j ++ t) (m + 1) = j.length + hlChars t (m + 1) := by
  intro j
  induction j with
  | nil => intro _; simp
  | cons a j ih =>
    intro hj
    have ha : a = zwnjChar := hj a (by simp)
    have hrest : ∀ c ∈ j, c = zwnjChar := fun c hc => hj c (by simp [hc])
    simp [hlChars, ha, ih hrest]
    omega

theorem dropWhile_head_false (p : Char → Bool) :
    ∀ (s : List Char) c t, s.dropWhile p = c :: t → p c = false := by
  intro s
  induction s with
  | nil => intro c t h; simp [List.dropWhile] at h
  | cons a s ih =>
    intro c t h
    by_cases hp : p a
    · exact ih c t (by simpa [List.dropWhile, hp] using h)
    · simp [List.dropWhile, hp] at h
      rw [← h.1]
      exact Bool.of_not_eq_true hp

theorem takeWhile_mem_true (p : Char → Bool) :
    ∀ (s : List Char) c, c ∈ s.takeWhile p → p c = true := by
  intro s
  induction s with
  | nil => intro c h; simp [List.takeWhile] at h
  | cons a s ih =>
    intro c h
    by_cases hp : p a
    · rcases (by simpa [List.takeWhile, hp] using h : c = a ∨ c ∈ s.takeWhile p) with h1 | h1
      · rw [h1]; exact hp
      · exact ih c h1
    · simp [List.takeWhile, hp] at h

theorem drop_append_cons (c : Char) (t : List Char) :
    ∀ a : List Char, (a ++ c :: t).drop (a.length + 1) = t := by
  intro a
  induction a with
  | nil => simp
  | cons x a ih =>
    simp only [List.cons_append, List.length_cons, List.drop_succ_cons]
    exact ih

theorem hlLoop_eq (T : List Char) :
    ∀ m hl, hlLoop T m hl = hl + hlChars (T.drop hl) m := by
  intro m
  induction m with
  | zero => intro hl; simp [hlLoop, hlChars]
  | succ m ih =>
    intro hl
    have hstep : hlLoop T (m + 1) hl = hlLoop T m (hl + skipJoinersLen T hl + 1) := rfl
    set s := T.drop hl with hs
    set k := (s.takeWhile (fun c => c == zwnjChar)).length with hk
    have hkk : skipJoinersLen T hl = k := rfl
    have hdecomp : s.takeWhile (fun c => c == zwnjChar) ++
        s.dropWhile (fun c => c == zwnjChar) = s :=
      List.takeWhile_append_dropWhile (fun c => c == zwnjChar) s
    have hjoin : ∀ c ∈ s.takeWhile (fun c => c == zwnjChar), c = zwnjChar := by
      intro c hc
      have hb := takeWhile_mem_true (fun c => c == zwnjChar) s c hc
      exact eq_of_beq hb
    have hdropdrop : T.drop (hl + k + 1) = s.drop (k + 1) := by
      rw [hs, List.drop_drop, Nat.add_assoc]
    rw [hstep, ih, hkk, hdropdrop]
    cases hdw : s.dropWhile (fun c => c == zwnjChar) with
    | nil =>
      have hsall : s.takeWhile (fun c => c == zwnjChar) = s := by
        conv_rhs => rw [← hdecomp]
        rw [hdw, List.append_nil]
      have hslen : s.length = k := by rw [hk, hsall]
      have hdropnil : s.drop (k + 1) = [] := by
        apply List.drop_eq_nil_of_le
        omega
      have hmem : ∀ c ∈ s, c = zwnjChar := by
        intro c hc
        exact hjoin c (by rw [hsall]; exact hc)
      have h2 := hlChars_joiner_block ([] : List Char) m s hmem
      rw [List.append_nil, hlChars_nil] at h2
      rw [hdropnil, hlChars_nil, h2]
      omega
    | cons c t =>
      have hc : c ≠ zwnjChar := by
        have hb := dropWhile_head_false (fun c => c == zwnjChar) s c t hdw
        intro hcc
        rw [hcc] at hb
        simp at hb
      have hsplit : s = s.takeWhile (fun c => c == zwnjChar) ++ c :: t := by
        conv_lhs => rw [← hdecomp]
        rw [hdw]
      have hdropt : s.drop (k + 1) = t := by
        conv_lhs => rw [hsplit]
        rw [hk]
        exact drop_append_cons c t _
      have hct : hlChars (c :: t) (m + 1) = hlChars t m + 1 := by
        simp [hlChars, hc]
      have hschars : hlChars s (m + 1) = k + (hlChars t m + 1) := by
        conv_lhs => rw [hsplit]
        rw [hlChars_joiner_block (c :: t) m _ hjoin, hct, hk]
      rw [hdropt, hschars]
      omega

theorem hlChars_spec :
    ∀ (s : List Char) (m : Nat), m ≤ countVisible s →
      hlChars s m = m + joinersBeforeVisible s m := by
  intro s
  induction s with
  | nil =>
    intro m h
    simp [countVisible] at h
    subst h
    rfl
  | cons c t ih =>
    intro m h
    cases m with
    | zero => rfl
    | succ m =>
      by_cases hc : c = zwnjChar
      · have hvis : countVisible (c :: t) = countVisible t := by
          simp [countVisible, hc]
        rw [hvis] at h
        simp [hlChars, joinersBeforeVisible, hc, ih (m + 1) h]
        omega
      · have hvis : countVisible (c :: t) = countVisible t + 1 := by
          have hb : (c != zwnjChar) = true := by simp [hc]
          simp [countVisible, List.filter_cons, hb]
        have ht : m ≤ countVisible t := by omega
        simp [hlChars, joinersBeforeVisible, hc, ih m ht]
        omega

/-- C2: Joiner-skip highlight length.  For every originalText T and match
length m with at least m visible characters available in T, the highlight
length computed by processSearchResult equals m plus the number of U+200C
characters of T occurring before the m-th visible character; joiners occupy
buffer slots but do not count toward the visible match length. -/
theorem highlightLength_spec (T : List Char) (m : Nat) (h : m ≤ countVisible T) :
    highlightLength T m = m + joinersBeforeVisible T m := by
  unfold highlightLength
  rw [hlLoop_eq T m 0]
  simpa using hlChars_spec T m h

theorem highlightLength_spec_witness :
    highlightLength ['中', zwnjChar, '国'] 2 =
      2 + joinersBeforeVisible ['中', zwnjChar, '国'] 2 :=
  highlightLength_spec ['中', zwnjChar, '国'] 2 (by decide)

/-- A DOM text node: an identifier (node identity) and its character data.
All nodes handed to the span collector are text nodes, because
findNextTextNode (mypy.js lines 514-531) iterates with the SHOW_TEXT filter
and therefore only ever yields nodes whose nodeName is the text name. -/
structure TextNode where
  id : Nat
  data : List Char
deriving DecidableEq

/-- An entry of selEndList: the node and the offset within it up to which
characters were included in the buffer (mypy.js lines 467-470, 495-498). -/
structure SelEnd where
  node : TextNode
  offset : Nat
deriving DecidableEq

/-- getTextFromSingleNode (mypy.js lines 490-503): takes up to maxLength
characters from the start of the node and records the checkpoint; the
caller appends the returned text and the source pushes the checkpoint. -/
def getTextFromSingleNode (node : TextNode) (maxLength : Nat) : List Char × SelEnd :=
  let endIndex := min maxLength node.data.length
  (node.data.take endIndex, ⟨node, endIndex⟩)

/-- The while loop of getText (mypy.js lines 472-475): while the collected
text is shorter than maxLength and a next text node exists, append from it.
The list argument is the chain of successive findNextTextNode results. -/
def getTextLoop (budget : Nat) : List TextNode → List Char × List SelEnd
  | [] => ([], [])
  | n :: rest =>
    if budget = 0 then ([], [])
    else
      let r := getTextFromSingleNode n budget
      let q := getTextLoop (budget - r.1.length) rest
      (r.1 ++ q.1, r.2 :: q.2)

/-- getText (mypy.js lines 458-478): take the substring of startNode from
offset up to min(length, offset + maxLength), record the checkpoint with
that absolute end index, then keep appending from following text nodes
while the budget is not exhausted.  The startNode nodeType guard of line
459 is satisfied here because startNode has the text-node type. -/
def getText (startNode : TextNode) (offset : Nat) (maxLength : Nat)
    (rest : List TextNode) : List Char × List SelEnd :=
  let endIndex := min startNode.data.length (offset + maxLength)
  let t := (startNode.data.take endIndex).drop offset
  let q := getTextLoop (maxLength - t.length) rest
  (t ++ q.1, ⟨startNode, endIndex⟩ :: q.2)

theorem getTextFromSingleNode_len (n : TextNode) (b : Nat) :
    (getTextFromSingleNode n b).1.length = min b n.data.length := by
  simp [getTextFromSingleNode]

theorem getTextLoop_len :
    ∀ (L : List TextNode) (budget : Nat),
      (getTextLoop budget L).1.length =
        min budget ((L.map (fun nd => nd.data.length)).sum) := by
  intro L
  induction L with
  | nil => intro budget; simp [getTextLoop]
  | cons n rest ih =>
    intro budget
    by_cases hb : budget = 0
    · simp [getTextLoop, hb]
    · simp only [getTextLoop, hb, if_neg, ite_false, List.length_append,
        List.map_cons, List.sum_cons, getTextFromSingleNode_len, ih]
      omega

/-- C3: Span collection respects its budget.  For every valid start
position (offset < length of startNode) and every maxLength n, the length
of the buffer returned by getText is the minimum of n and the number of
characters available from the start position through the chain of
following text nodes: it never exceeds n, and it equals n unless the chain
runs out of characters first. -/
theorem getText_budget (s : TextNode) (offset n : Nat) (rest : List TextNode)
    (h : offset < s.data.length) :
    (getText s offset n rest).1.length =
      min n (s.data.length - offset + ((rest.map (fun nd => nd.data.length)).sum)) := by
  simp only [getText, List.length_append, List.length_drop, List.length_take]
  rw [getTextLoop_len]
  omega

theorem getText_budget_witness :
    (getText ⟨0, ['a', 'b']⟩ 1 7 [⟨1, ['c', 'd', 'e']⟩]).1.length =
      min 7 ((['a', 'b'] : List Char).length - 1 +
        (([⟨1, ['c', 'd', 'e']⟩] : List TextNode).map (fun nd => nd.data.length)).sum) :=
  getText_budget ⟨0, ['a', 'b']⟩ 1 7 [⟨1, ['c', 'd', 'e']⟩] (by decide)

/-- The checkpoint walk of highlightMatch (mypy.js lines 408-417, 421): the
running offset starts at rangeStartOffset + matchLen; for each checkpoint,
if the running offset fits within it, stop there; otherwise subtract its
offset and continue.  When the loop runs out of checkpoints the last one is
used with the fully decremented offset.  Every subtraction happens only
when the running offset strictly exceeds the checkpoint offset, so Nat
subtraction is exact. -/
def projectLoop (off : Nat) : List SelEnd → Option (TextNode × Nat)
  | [] => none
  | [c] => if off ≤ c.offset then some (c.node, off) else some (c.node, off - c.offset)
  | c :: c2 :: rest =>
    if off ≤ c.offset then some (c.node, off)
    else projectLoop (off - c.offset) (c2 :: rest)

/-- highlightMatch range-end computation (mypy.js lines 405-421): a no-op
(none) when selEndList is empty (line 406), otherwise the checkpoint walk. -/
def highlightMatch (rangeStartOffset matchLen : Nat) (selEndList : List SelEnd) :
    Option (TextNode × Nat) :=
  if selEndList.isEmpty then none
  else projectLoop (rangeStartOffset + matchLen) selEndList

theorem projectLoop_valid :
    ∀ (l : List SelEnd) (off : Nat), l ≠ [] →
      off ≤ ((l.map (fun c => c.offset)).sum) →
      ∃ cp ∈ l, ∃ k, projectLoop off l = some (cp.node, k) ∧ k ≤ cp.offset := by
  intro l
  induction l with
  | nil => intro off h _; exact absurd rfl h
  | cons c rest ih =>
    intro off _ hsum
    cases rest with
    | nil =>
      have hoff : off ≤ c.offset := by simpa using hsum
      exact ⟨c, by simp, off, by simp [projectLoop, hoff], hoff⟩
    | cons c2 rs =>
      by_cases hbr : off ≤ c.offset
      · exact ⟨c, by simp, off, by simp [projectLoop, hbr], hbr⟩
      · have hsum2 : off - c.offset ≤ (((c2 :: rs).map (fun c => c.offset)).sum) := by
          simp only [List.map_cons, List.sum_cons] at hsum ⊢
          omega
        obtain ⟨cp, hmem, k, heq, hk⟩ := ih (off - c.offset) (by simp) hsum2
        exact ⟨cp, by simp [hmem], k, by simpa [projectLoop, hbr] using heq, hk⟩

theorem getTextLoop_offsets_sum :
    ∀ (L : List TextNode) (budget : Nat),
      (((getTextLoop budget L).2).map (fun c => c.offset)).sum =
        (getTextLoop budget L).1.length := by
  intro L
  induction L with
  | nil => intro budget; simp [getTextLoop]
  | cons n rest ih =>
    intro budget
    by_cases hb : budget = 0
    · simp [getTextLoop, hb]
    · simp only [getTextLoop, hb, if_neg, ite_false, List.map_cons, List.sum_cons,
        List.length_append, ih]
      simp [getTextFromSingleNode]

theorem getTextLoop_offsets_le :
    ∀ (L : List TextNode) (budget : Nat) (cp : SelEnd),
      cp ∈ (getTextLoop budget L).2 → cp.offset ≤ cp.node.data.length := by
  intro L
  induction L with
  | nil => intro budget cp h; simp [getTextLoop] at h
  | cons n rest ih =>
    intro budget cp h
    by_cases hb : budget = 0
    · simp [getTextLoop, hb] at h
    · simp only [getTextLoop, hb, if_neg, ite_false, List.mem_cons] at h
      rcases h with h | h
      · rw [h]; simp [getTextFromSingleNode]
      · exact ih (budget - (getTextFromSingleNode n budget).1.length) cp h

theorem getText_offsets_sum (s : TextNode) (offset n : Nat) (rest : List TextNode)
    (h : offset ≤ s.data.length) :
    (((getText s offset n rest).2).map (fun c => c.offset)).sum =
      offset + (getText s offset n rest).1.length := by
  simp only [getText, List.map_cons, List.sum_cons, List.length_append,
    List.length_drop, List.length_take, getTextLoop_offsets_sum]
  omega

theorem getText_offsets_le (s : TextNode) (offset n : Nat) (rest : List TextNode) :
    ∀ cp ∈ (getText s offset n rest).2, cp.offset ≤ cp.node.data.length := by
  intro cp h
  simp only [getText, List.mem_cons] at h
  rcases h with h | h
  · rw [h]; simp
  · exact getTextLoop_offsets_le rest _ cp h

def nodeA : TextNode := ⟨0, ['a', 'b']⟩

def nodeB : TextNode := ⟨1, ['x', 'y', 'z']⟩

def nodeC : TextNode := ⟨2, ['c', 'd', 'e', 'f', 'g', 'h', 'i', 'j']⟩

/-- C4 counterexample: the checkpoint list produced by the span collector
for start node "ab" at offset 0 with budget 7 followed by text nodes "xyz"
and "cdefghij" records the offsets 2, 3, 2, which are not non-decreasing in
traversal order. -/
theorem checkpoint_offsets_not_monotone :
    ¬ List.Chain' (fun a b : Nat => a ≤ b)
      (((getText nodeA 0 7 [nodeB, nodeC]).2).map (fun c => c.offset)) := by
  have h : ((getText nodeA 0 7 [nodeB, nodeC]).2).map (fun c => c.offset) = [2, 3, 2] := by
    decide
  rw [h]
  intro hc
  have h2 := (List.chain'_cons.mp hc).2
  have h3 := (List.chain'_cons.mp h2).1
  omega

/-- C4 amended: projection validity.  For every valid start position and
every matchLength at most the buffer length, projecting through the
checkpoint list returned by getText yields a (node, offset) pair whose node
is one of the checkpointed nodes and whose offset lies within that node's
recorded range (at most the recorded checkpoint offset, hence within the
node's data); the recorded offsets, however, need not be non-decreasing. -/
theorem project_valid (s : TextNode) (offset n : Nat) (rest : List TextNode)
    (m : Nat) (h1 : offset < s.data.length)
    (h2 : m ≤ (getText s offset n rest).1.length) :
    ∃ cp ∈ (getText s offset n rest).2, ∃ k,
      highlightMatch offset m ((getText s offset n rest).2) = some (cp.node, k) ∧
      k ≤ cp.offset ∧ k ≤ cp.node.data.length := by
  have hne : (getText s offset n rest).2 ≠ [] := by
    simp [getText]
  have hsum : offset + m ≤ ((((getText s offset n rest).2).map (fun c => c.offset)).sum) := by
    rw [getText_offsets_sum s offset n rest (le_of_lt h1)]
    omega
  obtain ⟨cp, hmem, k, heq, hk⟩ :=
    projectLoop_valid ((getText s offset n rest).2) (offset + m) hne hsum
  refine ⟨cp, hmem, k, ?_, hk, ?_⟩
  · rw [highlightMatch, if_neg (by simpa [List.isEmpty_iff] using hne)]
    exact heq
  · exact le_trans hk (getText_offsets_le s offset n rest cp hmem)

theorem project_valid_witness :
    ∃ cp ∈ (getText nodeA 0 7 [nodeB, nodeC]).2, ∃ k,
      highlightMatch 0 4 ((getText nodeA 0 7 [nodeB, nodeC]).2) = some (cp.node, k) ∧
      k ≤ cp.offset ∧ k ≤ cp.node.data.length :=
  project_valid nodeA 0 7 [nodeB, nodeC] 4 (by decide) (by decide)

/-- A search response as delivered to processSearchResult: the entry list,
the match length, and the originalText and selStartOffset that background.js
lines 32-33 copied back from the originating request. -/
structure SearchResponse where
  data : List DictEntry
  matchLen : Nat
  originalText : List Char
  selStartOffset : Nat
deriving DecidableEq

/-- The content-script globals that processSearchResult reads: the saved
text node, the saved hover offset, the saved selEndList, whether the saved
target is a form element, and whether the text node has an owner document. -/
structure HoverGlobals where
  savedTextNode : TextNode
  savedOffset : Nat
  savedSelEndList : List SelEnd
  targetIsForm : Bool
  docPresent : Bool
deriving DecidableEq

/-- The DOM mutations processSearchResult can perform. -/
inductive DomAction where
  | hidePopup
  | clearSel
  | highlight (startNode : TextNode) (startOffset : Nat) (endPos : Option (TextNode × Nat))
  | showPopup
deriving DecidableEq

/-- processSearchResult (mypy.js lines 233-262): on a missing or empty
result, hide the popup and clear the highlight; otherwise compute the
joiner-adjusted highlight length from the response and highlight using the
CURRENT saved globals together with the response's selStartOffset, then show
the popup.  No comparison of the response against the current hover state is
performed anywhere. -/
def processSearchResult (g : HoverGlobals) (result : Option SearchResponse) :
    List DomAction :=
  match result with
  | none => [DomAction.hidePopup, DomAction.clearSel]
  | some r =>
    if r.data.isEmpty then [DomAction.hidePopup, DomAction.clearSel]
    else
      let hlLen := highlightLength r.originalText r.matchLen
      if g.targetIsForm then [DomAction.showPopup]
      else if g.docPresent then
        [DomAction.highlight g.savedTextNode r.selStartOffset
          (highlightMatch r.selStartOffset hlLen g.savedSelEndList),
          DomAction.showPopup]
      else [DomAction.clearSel, DomAction.hidePopup]

def staleGlobals : HoverGlobals := ⟨nodeA, 3, [⟨nodeA, 2⟩], false, true⟩

def staleResponse : SearchResponse := ⟨[entryZhong], 1, ['中'], 0⟩

/-- C5: Stale-response guard.  The claim says a response whose originating
offset/text no longer matches the current hover state is silently discarded
with no DOM mutation; the code has no such guard: a response whose
selStartOffset (0) differs from the current savedOffset (3) still produces
a highlight and a popup. -/
theorem stale_response_mutates :
    staleResponse.selStartOffset ≠ staleGlobals.savedOffset ∧
    DomAction.showPopup ∈ processSearchResult staleGlobals (some staleResponse) ∧
    processSearchResult staleGlobals (some staleResponse) ≠
      [DomAction.hidePopup, DomAction.clearSel] := by
  refine ⟨by decide, ?_, ?_⟩ <;> decide

/-- The content-script controller state touched by disableTabs: whether the
mousemove listener is attached, whether the debounce timer is armed, and
whether the popup element is in the document. -/
structure ContentCtrl where
  mousemoveListener : Bool
  timerArmed : Bool
  popupInDom : Bool
deriving DecidableEq

/-- disableTabs (mypy.js lines 99-108): removes the mousemove listener,
removes the popup element and clears the highlight; it contains no
clearTimeout, so the debounce timer field is left untouched. -/
def disableTabs (st : ContentCtrl) : ContentCtrl :=
  ⟨false, st.timerArmed, false⟩

/-- C6: Disable cancels pending lookups.  The claim says a disable command
arriving in the PendingLookup state (timer armed) cancels the timer; in the
code disableTabs never touches the timer, so after a disable in a state
with the timer armed the timer is still armed and the pending makeSearch
will still fire. -/
theorem disable_leaves_timer_armed :
    (∀ st : ContentCtrl, (disableTabs st).timerArmed = st.timerArmed) ∧
    (disableTabs ⟨true, true, true⟩).timerArmed = true :=
  ⟨fun _ => rfl, rfl⟩

/-- The content-script selText global across its three JavaScript states:
initially undefined, set to null by clearHighlight, or holding the recorded
text of the last self-made selection. -/
inductive SelRecord where
  | undef
  | null
  | saved (t : List Char)
deriving DecidableEq

/-- The document selection: whether it is collapsed, and its text. -/
structure Selection where
  isCollapsed : Bool
  text : List Char
deriving DecidableEq

def emptySelection : Selection := ⟨true, []⟩

/-- Selection step of highlightMatch (mypy.js lines 423-428): if the current
selection is non-collapsed and its text differs from the recorded selText,
return without touching it; otherwise empty it, add the new range, and
record the new selection text. -/
def highlightApplySelection (sel : Selection) (r : SelRecord) (rangeText : List Char) :
    Selection × SelRecord :=
  if sel.isCollapsed = false ∧ r ≠ SelRecord.saved sel.text then (sel, r)
  else (⟨rangeText.isEmpty, rangeText⟩, SelRecord.saved rangeText)

/-- clearHighlight (mypy.js lines 431-439): return if selText is null (the
initial undefined value does NOT equal null under strict equality); empty
the selection only when it is collapsed or still equals the recorded
selText; finally set selText to null. -/
def clearHighlight (sel : Selection) (r : SelRecord) : Selection × SelRecord :=
  if r = SelRecord.null then (sel, r)
  else if sel.isCollapsed = true ∨ r = SelRecord.saved sel.text then
    (emptySelection, SelRecord.null)
  else (sel, SelRecord.null)

/-- C7: Selection-ownership invariant.  Whenever the current document
selection is non-collapsed and its text differs from the recorded self-made
selection text, both highlightMatch's selection step and clearHighlight
leave the document selection untouched: a selection the system did not
itself create is never overridden. -/
theorem selection_ownership (sel : Selection) (r : SelRecord) (rangeText : List Char)
    (h1 : sel.isCollapsed = false) (h2 : r ≠ SelRecord.saved sel.text) :
    (highlightApplySelection sel r rangeText).1 = sel ∧
    (clearHighlight sel r).1 = sel := by
  constructor
  · rw [highlightApplySelection, if_pos ⟨h1, h2⟩]
  · by_cases hn : r = SelRecord.null
    · rw [clearHighlight, if_pos hn]
    · rw [clearHighlight, if_neg hn, if_neg]
      simp [h1, h2]

theorem selection_ownership_witness :
    (highlightApplySelection ⟨false, ['u']⟩ SelRecord.undef ['v']).1 = ⟨false, ['u']⟩ ∧
    (clearHighlight ⟨false, ['u']⟩ SelRecord.undef).1 = ⟨false, ['u']⟩ :=
  selection_ownership ⟨false, ['u']⟩ SelRecord.undef ['v'] rfl (by decide)

/-- The effects of the content-script message listener. -/
inductive CtrlEffect where
  | addMouseListener
  | removeMouseListener
  | removePopup
  | clearSelection
  | renderPopup
deriving DecidableEq

/-- Content-script message listener (mypy.js lines 556-573).  The default
branch executes console.log with the identifier reqest, which is declared
nowhere in the script; the script runs under strict mode, so evaluating it
throws a ReferenceError instead of logging and returning. -/
def contentOnMessage (msgType : String) (isTopWindow : Bool) :
    Except String (List CtrlEffect) :=
  if msgType = "enable" then Except.ok [CtrlEffect.addMouseListener]
  else if msgType = "disable" then
    Except.ok [CtrlEffect.removeMouseListener, CtrlEffect.removePopup,
      CtrlEffect.clearSelection]
  else if msgType = "showPopup" then
    Except.ok (if isTopWindow then [CtrlEffect.renderPopup] else [])
  else Except.error "ReferenceError: reqest is not defined"

/-- The effects of the background message listener. -/
inductive BgEffect where
  | callback (response : Option (List DictEntry × Nat))
  | logUnknown
deriving DecidableEq

/-- Background message listener (background.js lines 27-40): a search
message looks the text up and invokes the callback (the originalText and
selStartOffset enrichment of a truthy response is modelled in
SearchResponse); any other type is logged and the listener returns
normally. -/
def backgroundOnMessage (dict : Dict) (msgType : String) (text : List Char) :
    Except String (List BgEffect) :=
  if msgType = "search" then Except.ok [BgEffect.callback (lookUpWord dict text)]
  else Except.ok [BgEffect.logUnknown]

/-- C8: Unknown-message robustness.  The claim says both listeners log an
unrecognized message and return normally; the background listener does, but
the content listener's default branch references the undeclared identifier
reqest and therefore throws a ReferenceError instead of returning. -/
theorem unknown_message_behavior :
    backgroundOnMessage demoDict "copy" [] = Except.ok [BgEffect.logUnknown] ∧
    contentOnMessage "copy" true = Except.error "ReferenceError: reqest is not defined" := by
  constructor <;> rfl

/-- showPopup positioning (mypy.js lines 338-383), modelled for the case
where the target element is present.  The width branch on line 347 assigns
200 to the undeclared identifier pw instead of pW; under strict mode this
throws a ReferenceError, so the fallback width never reaches pW and the
subsequent overflow correction is never executed.  For a positive measured
width the model performs the height fallback, the horizontal and vertical
overflow corrections and the scroll adjustment of the source. -/
def showPopupPosition (pW pH : Int) (brCount : Nat)
    (x0 y0 innerWidth innerHeight scrollX scrollY : Int) :
    Except String (Int × Int) :=
  let v : Int := 25
  if pW ≤ 0 then Except.error "ReferenceError: pw is not defined"
  else
    let pH2 := if pH ≤ 0 then 25 + 22 * (brCount : Int) else pH
    let x1 := if x0 + pW > innerWidth - 20 then
        (if innerWidth - pW - 20 < 0 then 0 else innerWidth - pW - 20)
      else x0
    let y1 := if y0 + v + pH2 > innerHeight then
        (if y0 - pH2 - 30 ≥ 0 then y0 - pH2 - 30 else y0 + v)
      else y0 + v
    Except.ok (x1 + scrollX, y1 + scrollY)

/-- C9: Popup width fallback.  The claim says a non-positive measured popup
width makes showPopup use a default width of 200 in the overflow
correction; in the code the assignment goes to the undeclared identifier
pw, so at measured width 0 the function throws a ReferenceError and no
fallback width is ever applied. -/
theorem popup_width_fallback_bug :
    showPopupPosition 0 40 0 100 100 800 600 0 0 =
      Except.error "ReferenceError: pw is not defined" ∧
    showPopupPosition (-5) 40 2 100 100 800 600 0 0 =
      Except.error "ReferenceError: pw is not defined" :=
  ⟨rfl, rfl⟩

/-- JavaScript String.replace with a plain-string pattern (mypy.js line
207): removes only the first (leftmost) occurrence of the pattern. -/
def replaceFirst (pat : List Char) : List Char → List Char
  | [] => []
  | c :: rest =>
    if pat.isPrefixOf (c :: rest) then (c :: rest).drop pat.length
    else c :: replaceFirst pat rest

/-- The five-character literal pattern of the replace call in makeSearch. -/
def ampZwnjLiteral : List Char := ['&', 'z', 'w', 'n', 'j']

/-- makeSearch (mypy.js line 207): the text sent in the search request is
originalText with the literal five-character pattern replaced once; the
zwnj regular expression of line 92 is never used there. -/
def makeSearchText (originalText : List Char) : List Char :=
  replaceFirst ampZwnjLiteral originalText

theorem isPrefixOf_exists :
    ∀ (p l : List Char), p.isPrefixOf l = true → ∃ t, l = p ++ t := by
  intro p
  induction p with
  | nil => intro l _; exact ⟨l, rfl⟩
  | cons a p ih =>
    intro l h
    cases l with
    | nil => simp [List.isPrefixOf] at h
    | cons b l =>
      simp only [List.isPrefixOf, Bool.and_eq_true, beq_iff_eq] at h
      obtain ⟨t, ht⟩ := ih l h.2
      exact ⟨t, by rw [h.1, ht]; rfl⟩

theorem replaceFirst_count (pat : List Char) (z : Char) (hz : z ∉ pat) :
    ∀ b : List Char, (replaceFirst pat b).count z = b.count z := by
  intro b
  induction b with
  | nil => rfl
  | cons c rest ih =>
    by_cases hp : pat.isPrefixOf (c :: rest)
    · obtain ⟨t, ht⟩ := isPrefixOf_exists pat (c :: rest) hp
      have hpz : pat.count z = 0 := List.count_eq_zero.mpr hz
      rw [replaceFirst, if_pos hp, ht, List.drop_left, List.count_append, hpz]
      omega
    · rw [replaceFirst, if_neg hp]
      by_cases hcz : c = z
      · rw [hcz, List.count_cons_self, List.count_cons_self, ih]
      · rw [List.count_cons_of_ne (by exact fun h => hcz h.symm),
          List.count_cons_of_ne (by exact fun h => hcz h.symm), ih]

theorem isPrefixOf_append_self :
    ∀ p t : List Char, p.isPrefixOf (p ++ t) = true := by
  intro p
  induction p with
  | nil => intro t; simp [List.isPrefixOf]
  | cons a p ih => intro t; simp [List.isPrefixOf, ih t]

/-- C10: The search text sent by makeSearch is the collected buffer with
only the first occurrence of the literal five-character pattern removed;
actual U+200C code points are not removed, so every buffer containing
U+200C still contains it (indeed the same number of occurrences) in the
text sent to the dictionary. -/
theorem search_text_keeps_zwnj (b : List Char) :
    (makeSearchText b).count zwnjChar = b.count zwnjChar ∧
    makeSearchText (ampZwnjLiteral ++ b) = b ∧
    (zwnjChar ∈ b → zwnjChar ∈ makeSearchText b) := by
  have hz : zwnjChar ∉ ampZwnjLiteral := by decide
  have hcount := replaceFirst_count ampZwnjLiteral zwnjChar hz b
  refine ⟨hcount, ?_, ?_⟩
  · rw [makeSearchText]
    cases hb : ampZwnjLiteral ++ b with
    | nil => simp [ampZwnjLiteral] at hb
    | cons c rest =>
      rw [replaceFirst, ← hb, if_pos (isPrefixOf_append_self ampZwnjLiteral b),
        List.drop_left]
  · intro hmem
    have hpos : 0 < b.count zwnjChar := List.count_pos_iff.mpr hmem
    have hres : 0 < (makeSearchText b).count zwnjChar := by
      rw [makeSearchText, hcount]; exact hpos
    exact List.count_pos_iff.mp hres

theorem search_text_keeps_zwnj_witness :
    zwnjChar ∈ makeSearchText ['&', 'z', 'w', 'n', 'j', zwnjChar] :=
  (search_text_keeps_zwnj ['&', 'z', 'w', 'n', 'j', zwnjChar]).2.2 (by decide)
